import Mathlib

/-!
Verification development for the audio-transcript pipeline of
`src/py/process_audio.py` (energy VAD, speaker-count estimation,
diarization, interval-to-speaker alignment, transcript merging).

Modelling conventions:
* Python floats are idealised as exact numbers: time values, option values
  and feature entries are `ℚ`; quantities produced by `numpy` square roots
  (frame RMS energies, standard deviations) live in `ℝ` with `Real.sqrt`.
* Python strings are `List Char`; `str.strip()` is the `strip` function
  below, dropping the same whitespace characters Python drops.
* The external capabilities the script imports (`AgglomerativeClustering`,
  `silhouette_score`) are injected as function parameters (`Clusterer`,
  `Scorer`), matching their contracts: per-row labels and a real score.
* Python's `int()` (truncation toward zero) is `pyInt`; `options.get` over
  the option dictionaries is an `Option` field plus `getD` with the same
  default the source passes.
-/

namespace ProcessAudio

/-- Python `int(q)`: truncation toward zero. -/
def pyInt (q : ℚ) : ℤ := if 0 ≤ q then ⌊q⌋ else -⌊-q⌋

/-- The whitespace characters stripped by Python's `str.strip()`. -/
def isPySpace (c : Char) : Bool :=
  c == ' ' || c == '\t' || c == '\n' || c == '\r' || c == '\x0b' || c == '\x0c'

/-- Python `str.strip()` on a `List Char`: drop whitespace from both ends. -/
def strip (s : List Char) : List Char :=
  ((s.dropWhile isPySpace).reverse.dropWhile isPySpace).reverse

/-- The `SpeechSegment` dataclass of the source.  The Python field `end` is
called `stop` here because `end` is a Lean keyword. -/
structure SpeechSegment where
  start : ℚ
  stop : ℚ
  speaker : ℤ := 0
  text : List Char := []
deriving DecidableEq

/-- Shape of the utterances returned by the transcription capability:
`{start, end, text}` (the field `end` is again called `stop`). -/
structure AsrUtterance where
  start : ℚ
  stop : ℚ
  text : List Char
deriving DecidableEq

/-- The external clustering capability: a feature matrix and a cluster
count give per-row integer labels. -/
abbrev Clusterer := List (List ℚ) → ℤ → List ℤ

/-- The external cluster-quality scoring capability (`silhouette_score`). -/
abbrev Scorer := List (List ℚ) → List ℤ → ℚ

/-- The `diarization` option dictionary: any key may be absent. -/
structure DiarOptions where
  min_speakers : Option ℤ := none
  max_speakers : Option ℤ := none
  num_speakers : Option ℤ := none

/-- Python truthiness of `diar_options.get('num_speakers')`: `None` and `0`
are falsy. -/
def pyTruthyInt : Option ℤ → Bool
  | none => false
  | some n => n != 0

/-- Python `range(a, b + 1)` as a list of integers. -/
def intRange (a b : ℤ) : List ℤ :=
  (List.range (b + 1 - a).toNat).map (fun i => a + (i : ℤ))

/-- One step of the silhouette sweep of `estimate_speaker_count`: keep the
candidate `(k, score)` exactly when its score strictly improves on the
best score so far. -/
def sweepStep (acc : ℚ × ℤ) (c : ℤ × ℚ) : ℚ × ℤ :=
  if acc.1 < c.2 then (c.2, c.1) else acc

/-- `estimate_speaker_count(features, diar_options)` with the clustering
and scoring capabilities injected.  Mirrors the source: single-row
matrices return 1, a truthy `num_speakers` short-circuits to
`max(1, num_speakers)`, otherwise a sweep over
`range(min_speakers, min(max_speakers, rows) + 1)` keeps the first `k`
whose score strictly improves on the running best (initialised to `-1`),
and a final clamp returns 1 when no candidate was kept. -/
def estimate_speaker_count (cluster : Clusterer) (score : Scorer)
    (features : List (List ℚ)) (o : DiarOptions) : ℤ :=
  if features.length ≤ 1 then 1
  else if pyTruthyInt o.num_speakers then max 1 (o.num_speakers.getD 0)
  else
    let rows : ℤ := (features.length : ℤ)
    let best := (intRange (o.min_speakers.getD 2) (min (o.max_speakers.getD 6) rows)).foldl
      (fun acc k =>
        if k ≤ 1 ∨ rows < k then acc
        else
          let labels := cluster features k
          if labels.dedup.length ≤ 1 then acc
          else sweepStep acc (k, score features labels))
      ((-1 : ℚ), (1 : ℤ))
    if best.2 ≤ 1 then 1 else best.2

/-- The candidate list actually examined by the sweep of
`estimate_speaker_count`: each `k` in the swept range that is `> 1`,
`≤ rows`, and whose clustering does not collapse to a single label,
paired with its quality score. -/
def sweepCandidates (cluster : Clusterer) (score : Scorer)
    (features : List (List ℚ)) (o : DiarOptions) : List (ℤ × ℚ) :=
  let rows : ℤ := (features.length : ℤ)
  (intRange (o.min_speakers.getD 2) (min (o.max_speakers.getD 6) rows)).filterMap
    (fun k =>
      if k ≤ 1 ∨ rows < k then none
      else
        let labels := cluster features k
        if labels.dedup.length ≤ 1 then none
        else some (k, score features labels))

/-- `diarize_segments(segments, features, diar_options)` with the
capabilities injected.  The label lookup `labels[idx]` is modelled totally
as `getD idx 0`; Python's stable `list.sort(key=lambda seg: seg.start)` is
`mergeSort` on the start field. -/
def diarize_segments (cluster : Clusterer) (score : Scorer)
    (segments : List (ℚ × ℚ)) (features : List (List ℚ)) (o : DiarOptions) :
    List SpeechSegment :=
  if segments.isEmpty then []
  else
    let n := estimate_speaker_count cluster score features o
    if n ≤ 1 then
      segments.map (fun p => { start := p.1, stop := p.2, speaker := 0, text := [] })
    else
      let labels := cluster features n
      let diarized := segments.enum.map (fun q =>
        { start := q.2.1, stop := q.2.2, speaker := labels.getD q.1 0, text := [] })
      diarized.mergeSort (fun a b => decide (a.start ≤ b.start))

/-- The distance-to-midpoint minimisation of the final fallback of
`assign_speaker_for_interval`: this models the `distances` list plus
`np.argmin` (first minimum wins, strict improvement only), tracking the
winning segment by value instead of by index. -/
def nearestLoop (mid : ℚ) : List SpeechSegment → ℚ → SpeechSegment → SpeechSegment
  | [], _, b => b
  | s :: rest, bd, b =>
    let d := min |mid - s.start| |mid - s.stop|
    if d < bd then nearestLoop mid rest d s else nearestLoop mid rest bd b

/-- Speaker of the segment whose nearest boundary is closest to `mid`. -/
def nearestSpeaker (mid : ℚ) : List SpeechSegment → ℤ
  | [] => 0
  | s :: rest => (nearestLoop mid rest (min |mid - s.start| |mid - s.stop|) s).speaker

/-- The scanning loop of `assign_speaker_for_interval`: update the
best-positive-overlap segment, then return immediately when the midpoint
lies in `[start, end]` of the current segment; when the list is exhausted,
fall back to the best-overlap segment and then to the nearest boundary.
The best segment is tracked by value instead of by index. -/
def assignLoop (start stop mid : ℚ) (segsAll : List SpeechSegment) :
    List SpeechSegment → Option SpeechSegment → ℚ → ℤ
  | [], best, _ =>
    match best with
    | some b => b.speaker
    | none => nearestSpeaker mid segsAll
  | s :: rest, best, bestOv =>
    let ov := min stop s.stop - max start s.start
    let best' := if bestOv < ov then some s else best
    let bestOv' := if bestOv < ov then ov else bestOv
    if s.start ≤ mid ∧ mid ≤ s.stop then s.speaker
    else assignLoop start stop mid segsAll rest best' bestOv'

/-- `assign_speaker_for_interval(start, end, segments)`. -/
def assign_speaker_for_interval (start stop : ℚ) (segments : List SpeechSegment) : ℤ :=
  if segments.isEmpty then 0
  else assignLoop start stop ((start + stop) / 2) segments segments none 0

/-- One iteration of the loop of `merge_transcript_segments`, over the
accumulator kept in reverse order (head = most recently accepted
segment).  Empty trimmed text skips the utterance; same speaker within
`merge_gap` extends the last accepted segment in place; otherwise a fresh
segment is appended. -/
def mergeStep (ds : List SpeechSegment) (gap : ℚ)
    (acc : List SpeechSegment) (seg : AsrUtterance) : List SpeechSegment :=
  let text := strip seg.text
  if text.isEmpty then acc
  else
    let speaker := assign_speaker_for_interval seg.start seg.stop ds
    match acc with
    | last :: rest =>
      if last.speaker = speaker ∧ seg.start - last.stop ≤ gap then
        { last with stop := seg.stop, text := strip (last.text ++ ' ' :: text) } :: rest
      else
        { start := seg.start, stop := seg.stop, speaker := speaker, text := text } :: last :: rest
    | [] => [{ start := seg.start, stop := seg.stop, speaker := speaker, text := text }]

/-- `merge_transcript_segments(transcript_segments, diarized_segments, merge_gap)`. -/
def merge_transcript_segments (ts : List AsrUtterance)
    (ds : List SpeechSegment) (gap : ℚ) : List SpeechSegment :=
  (ts.foldl (mergeStep ds gap) []).reverse

/-- Text invariant of the segments accepted by `merge_transcript_segments`:
the text is its own trim and is non-empty. -/
def GoodText (x : SpeechSegment) : Prop := strip x.text = x.text ∧ x.text ≠ []

/-- The `vad` option dictionary: any key may be absent, and `energy_vad`
falls back to `DEFAULT_VAD_OPTIONS` per key. -/
structure VadOptions where
  frame_length : Option ℚ := none
  hop_length : Option ℚ := none
  threshold_multiplier : Option ℚ := none
  min_speech : Option ℚ := none
  min_silence : Option ℚ := none
  thr : Option ℚ := none
  threshold : Option ℚ := none

/-- Effective `frame_length` (default 0.03 s). -/
def vadFrameLen (o : VadOptions) : ℚ := o.frame_length.getD (3 / 100)

/-- Effective `hop_length` (default 0.01 s). -/
def vadHopLen (o : VadOptions) : ℚ := o.hop_length.getD (1 / 100)

/-- Effective `threshold_multiplier` (default 0.5). -/
def vadThresholdMult (o : VadOptions) : ℚ := o.threshold_multiplier.getD (1 / 2)

/-- Effective `min_speech` (default 0.4 s). -/
def vadMinSpeech (o : VadOptions) : ℚ := o.min_speech.getD (2 / 5)

/-- Effective `min_silence` (default 0.3 s). -/
def vadMinSilence (o : VadOptions) : ℚ := o.min_silence.getD (3 / 10)

/-- `options.get('thr') or options.get('threshold')`: Python `or` falls
through to the second lookup when `thr` is absent or falsy (zero). -/
def manualThreshold (o : VadOptions) : Option ℚ :=
  match o.thr with
  | some v => if v = 0 then o.threshold else some v
  | none => o.threshold

/-- `frame_samples = max(1, int(frame_length * sr))`. -/
def frameSamples (sr : ℕ) (o : VadOptions) : ℕ :=
  (max 1 (pyInt (vadFrameLen o * sr))).toNat

/-- `hop_samples = max(1, int(hop_length * sr))`. -/
def hopSamples (sr : ℕ) (o : VadOptions) : ℕ :=
  (max 1 (pyInt (vadHopLen o * sr))).toNat

/-- `len(audio) / sr`, the buffer duration in seconds. -/
def vadDuration (audio : List ℚ) (sr : ℕ) : ℚ := (audio.length : ℚ) / (sr : ℚ)

/-- Number of iterations of `range(0, len(audio) - frame_samples + 1,
hop_samples)` when `len(audio) ≥ frame_samples`. -/
def numFrames (n fs hs : ℕ) : ℕ := (n - fs) / hs + 1

/-- The sample offsets of `range(0, len(audio) - frame_samples + 1, hop_samples)`. -/
def frameStarts (n fs hs : ℕ) : List ℕ := List.range' 0 (numFrames n fs hs) hs

/-- Root-mean-square energy of one frame: `sqrt(mean(frame ** 2))`. -/
noncomputable def rmsEnergy (f : List ℚ) : ℝ :=
  Real.sqrt ((((f.map (fun x => x * x)).sum / (f.length : ℚ) : ℚ) : ℝ))

/-- The per-frame RMS energies of the buffer. -/
noncomputable def vadEnergies (audio : List ℚ) (sr : ℕ) (o : VadOptions) : List ℝ :=
  (frameStarts audio.length (frameSamples sr o) (hopSamples sr o)).map
    (fun s => rmsEnergy ((audio.drop s).take (frameSamples sr o)))

/-- Arithmetic mean of a list of reals (`np.mean`). -/
noncomputable def listMean (l : List ℝ) : ℝ := l.sum / (l.length : ℝ)

/-- Population standard deviation of a list of reals (`np.std`). -/
noncomputable def listStd (l : List ℝ) : ℝ :=
  Real.sqrt ((l.map (fun e => (e - listMean l) ^ 2)).sum / (l.length : ℝ))

/-- The speech/non-speech threshold of `energy_vad`: the manual override
when `thr`/`threshold` resolves to a value, else
`mean(energies) + std(energies) * threshold_multiplier`. -/
noncomputable def vadThreshold (energies : List ℝ) (o : VadOptions) : ℝ :=
  match manualThreshold o with
  | some v => (v : ℝ)
  | none => listMean energies + listStd energies * (vadThresholdMult o : ℝ)

/-- `speech_flags = energies_np > threshold`, one Boolean per frame. -/
noncomputable def speechFlags (energies : List ℝ) (t : ℝ) : List Bool :=
  energies.map (fun e => decide (t < e))

/-- Closing a candidate interval `(s, e)`: when the gap since the previous
accepted interval's end is `< min_silence`, extend that interval instead
of appending.  The accumulator holds the accepted intervals in reverse
order (head = most recent). -/
def pushSeg (acc : List (ℚ × ℚ)) (s e minSil : ℚ) : List (ℚ × ℚ) :=
  match acc with
  | (ps, pe) :: rest => if s - pe < minSil then (ps, e) :: rest else (s, e) :: (ps, pe) :: rest
  | [] => [(s, e)]

/-- The sequential scan of `energy_vad` over the speech flags: open a
candidate interval on a speech transition at frame `i` (start
`i * hop_length`), close it on a non-speech transition (end
`min(duration, i * hop_length + frame_length)`), and close any open
candidate at the end of the buffer with end `duration`.  `i` is the
current frame index and the accumulator is kept in reverse order. -/
def vadScanAux (hop fl dur minSil : ℚ) :
    List Bool → ℕ → Option ℕ → List (ℚ × ℚ) → List (ℚ × ℚ)
  | [], _, none, acc => acc
  | [], _, some cs, acc => pushSeg acc ((cs : ℚ) * hop) dur minSil
  | b :: rest, i, cur, acc =>
    match b, cur with
    | true, none => vadScanAux hop fl dur minSil rest (i + 1) (some i) acc
    | false, some cs =>
      vadScanAux hop fl dur minSil rest (i + 1) none
        (pushSeg acc ((cs : ℚ) * hop) (min dur ((i : ℚ) * hop + fl)) minSil)
    | _, _ => vadScanAux hop fl dur minSil rest (i + 1) cur acc

/-- The candidate intervals of `energy_vad` before the `min_speech`
post-filter, in chronological order. -/
noncomputable def vadSegments (audio : List ℚ) (sr : ℕ) (o : VadOptions) : List (ℚ × ℚ) :=
  let energies := vadEnergies audio sr o
  (vadScanAux (vadHopLen o) (vadFrameLen o) (vadDuration audio sr) (vadMinSilence o)
    (speechFlags energies (vadThreshold energies o)) 0 none []).reverse

/-- The `min_speech` post-filter: keep intervals with
`seg_end - seg_start >= min_speech`. -/
def vadRefine (segs : List (ℚ × ℚ)) (o : VadOptions) : List (ℚ × ℚ) :=
  segs.filter (fun p => vadMinSpeech o ≤ p.2 - p.1)

/-- `energy_vad(audio, sr, options)`: frame the buffer, threshold the RMS
energies, scan into intervals, filter by `min_speech`, and fall back to
the whole-buffer interval in each degenerate case. -/
noncomputable def energy_vad (audio : List ℚ) (sr : ℕ) (o : VadOptions) : List (ℚ × ℚ) :=
  if audio.length < frameSamples sr o then [(0, vadDuration audio sr)]
  else if (vadEnergies audio sr o).isEmpty then [(0, vadDuration audio sr)]
  else
    let refined := vadRefine (vadSegments audio sr o) o
    if refined.isEmpty then [(0, vadDuration audio sr)] else refined

/-- A VAD option set exercising the pitfalls of `energy_vad`'s interval
arithmetic: `hop_length * sr = 1.99` truncates to a hop of one sample
while interval starts are still computed with the 1.99-second hop, and a
negative `min_speech` keeps every candidate interval. -/
def vadOptionsCex : VadOptions :=
  { frame_length := some 1, hop_length := some (199 / 100),
    min_speech := some (-5), thr := some (1 / 2) }

/-! ### Lemmas about `strip` -/

lemma dropWhile_head_false {α : Type*} {p : α → Bool} :
    ∀ {l : List α} {c : α} {r : List α}, l.dropWhile p = c :: r → p c = false := by
  intro l
  induction l with
  | nil => intro c r h; simp [List.dropWhile] at h
  | cons a t ih =>
    intro c r h
    rw [List.dropWhile_cons] at h
    by_cases hp : p a = true
    · rw [if_pos hp] at h; exact ih h
    · rw [if_neg hp] at h
      cases h
      simpa using hp

lemma dropWhile_idem {α : Type*} {p : α → Bool} (l : List α) :
    (l.dropWhile p).dropWhile p = l.dropWhile p := by
  cases h : l.dropWhile p with
  | nil => simp
  | cons c r => rw [List.dropWhile_cons, dropWhile_head_false h, if_neg (by simp)]

lemma dropWhile_eq_self_head_false {α : Type*} {p : α → Bool} {l : List α} {c : α}
    {r : List α} (hl : l.dropWhile p = l) (hcr : l = c :: r) : p c = false := by
  subst hcr
  rw [List.dropWhile_cons] at hl
  by_cases hp : p c = true
  · rw [if_pos hp] at hl
    have := (List.dropWhile_sublist (l := r) p).length_le
    rw [hl] at this
    simp at this
  · simpa using hp

lemma strip_dropWhile (s : List Char) :
    (strip s).dropWhile isPySpace = strip s := by
  unfold strip
  cases hd : (s.dropWhile isPySpace).reverse.dropWhile isPySpace with
  | nil => simp
  | cons a d =>
    cases htc : s.dropWhile isPySpace with
    | nil =>
      rw [htc] at hd
      simp [List.dropWhile] at hd
    | cons c0 r0 =>
      have hc0 : isPySpace c0 = false := dropWhile_head_false htc
      have hsuff : (a :: d) <:+ (s.dropWhile isPySpace).reverse := by
        rw [← hd]; exact List.dropWhile_suffix _
      obtain ⟨u, hu⟩ := hsuff
      have hlast : (a :: d).getLast? = some c0 := by
        have h1 : (u ++ a :: d).getLast? = (a :: d).getLast? :=
          List.getLast?_append_of_ne_nil u (by simp)
        rw [hu, htc, List.reverse_cons, List.getLast?_concat] at h1
        exact h1.symm
      have hhead : ((a :: d).reverse).head? = some c0 := by
        rw [List.head?_reverse, hlast]
      cases hrev : (a :: d).reverse with
      | nil => simp at hrev
      | cons c w =>
        rw [hrev] at hhead
        simp only [List.head?_cons, Option.some.injEq] at hhead
        rw [List.dropWhile_cons, hhead, hc0, if_neg (by simp)]

lemma strip_reverse_dropWhile (s : List Char) :
    (strip s).reverse.dropWhile isPySpace = (strip s).reverse := by
  unfold strip
  rw [List.reverse_reverse]
  exact dropWhile_idem _

lemma strip_eq_self_of {l : List Char} (h1 : l.dropWhile isPySpace = l)
    (h2 : l.reverse.dropWhile isPySpace = l.reverse) : strip l = l := by
  unfold strip
  rw [h1, h2, List.reverse_reverse]

lemma strip_idem (s : List Char) : strip (strip s) = strip s :=
  strip_eq_self_of (strip_dropWhile s) (strip_reverse_dropWhile s)

lemma strip_append_stripped {a b : List Char} (ha : strip a = a) (hb : strip b = b)
    (ha' : a ≠ []) (hb' : b ≠ []) : strip (a ++ ' ' :: b) = a ++ ' ' :: b := by
  have haL : a.dropWhile isPySpace = a := by
    conv_lhs => rw [← ha]
    conv_rhs => rw [← ha]
    exact strip_dropWhile a
  have hbR : b.reverse.dropWhile isPySpace = b.reverse := by
    conv_lhs => rw [← hb]
    conv_rhs => rw [← hb]
    exact strip_reverse_dropWhile b
  cases hac : a with
  | nil => exact absurd hac ha'
  | cons c r =>
    have hc : isPySpace c = false := dropWhile_eq_self_head_false haL hac
    cases hbc : b.reverse with
    | nil => simp at hbc; exact absurd hbc hb'
    | cons d w =>
      have hd : isPySpace d = false := dropWhile_eq_self_head_false hbR hbc
      apply strip_eq_self_of
      · rw [List.cons_append, List.dropWhile_cons, hc, if_neg (by simp)]
      · rw [List.reverse_append, List.reverse_cons, hbc, List.append_assoc,
          List.cons_append, List.dropWhile_cons, hd, if_neg (by simp)]

lemma strip_ne_nil_of_append {a b : List Char} (ha : strip a = a) (hb : strip b = b)
    (ha' : a ≠ []) (hb' : b ≠ []) : strip (a ++ ' ' :: b) ≠ [] := by
  rw [strip_append_stripped ha hb ha' hb']
  simp

/-! ### Lemmas about `assign_speaker_for_interval` -/

lemma assignLoop_containment (start stop mid : ℚ) (all : List SpeechSegment) :
    ∀ (pre : List SpeechSegment) (s : SpeechSegment) (post : List SpeechSegment)
      (best : Option SpeechSegment) (bestOv : ℚ),
      (∀ t ∈ pre, ¬(t.start ≤ mid ∧ mid ≤ t.stop)) →
      s.start ≤ mid → mid ≤ s.stop →
      assignLoop start stop mid all (pre ++ s :: post) best bestOv = s.speaker := by
  intro pre
  induction pre with
  | nil =>
    intro s post best bestOv _ h1 h2
    rw [List.nil_append]
    simp only [assignLoop]
    rw [if_pos ⟨h1, h2⟩]
  | cons t pre ih =>
    intro s post best bestOv hpre h1 h2
    rw [List.cons_append]
    simp only [assignLoop]
    rw [if_neg (hpre t (by simp))]
    exact ih s post _ _ (fun x hx => hpre x (by simp [hx])) h1 h2

lemma nearestLoop_mem (mid : ℚ) :
    ∀ (l : List SpeechSegment) (bd : ℚ) (b : SpeechSegment),
      nearestLoop mid l bd b = b ∨ nearestLoop mid l bd b ∈ l := by
  intro l
  induction l with
  | nil => intro bd b; left; rfl
  | cons s rest ih =>
    intro bd b
    unfold nearestLoop
    simp only
    by_cases hlt : min |mid - s.start| |mid - s.stop| < bd
    · rw [if_pos hlt]
      rcases ih (min |mid - s.start| |mid - s.stop|) s with h | h
      · right; rw [h]; exact List.mem_cons_self _ _
      · right; exact List.mem_cons_of_mem _ h
    · rw [if_neg hlt]
      rcases ih bd b with h | h
      · left; exact h
      · right; exact List.mem_cons_of_mem _ h

lemma nearestSpeaker_mem (mid : ℚ) (segs : List SpeechSegment) (h : segs ≠ []) :
    ∃ t ∈ segs, nearestSpeaker mid segs = t.speaker := by
  cases segs with
  | nil => exact absurd rfl h
  | cons s rest =>
    unfold nearestSpeaker
    rcases nearestLoop_mem mid rest (min |mid - s.start| |mid - s.stop|) s with hh | hh
    · exact ⟨_, by rw [hh]; exact List.mem_cons_self _ _, rfl⟩
    · exact ⟨_, List.mem_cons_of_mem _ hh, rfl⟩

lemma assignLoop_mem (start stop mid : ℚ) (all : List SpeechSegment) (hall : all ≠ []) :
    ∀ (l : List SpeechSegment) (best : Option SpeechSegment) (bestOv : ℚ),
      (∀ t ∈ l, t ∈ all) → (∀ b, best = some b → b ∈ all) →
      ∃ t ∈ all, assignLoop start stop mid all l best bestOv = t.speaker := by
  intro l
  induction l with
  | nil =>
    intro best bestOv _ hbest
    cases best with
    | some b => exact ⟨b, hbest b rfl, rfl⟩
    | none => exact nearestSpeaker_mem mid all hall
  | cons s rest ih =>
    intro best bestOv hl hbest
    simp only [assignLoop]
    by_cases hc : s.start ≤ mid ∧ mid ≤ s.stop
    · rw [if_pos hc]
      exact ⟨s, hl s (List.mem_cons_self _ _), rfl⟩
    · rw [if_neg hc]
      apply ih
      · exact fun t ht => hl t (List.mem_cons_of_mem _ ht)
      · intro b hb
        by_cases hov : bestOv < min stop s.stop - max start s.start
        · rw [if_pos hov] at hb
          cases hb
          exact hl s (List.mem_cons_self _ _)
        · rw [if_neg hov] at hb
          exact hbest b hb

/-! ### Lemmas about `merge_transcript_segments` -/

lemma mergeStep_goodtext (ds : List SpeechSegment) (gap : ℚ) (acc : List SpeechSegment)
    (u : AsrUtterance) (hacc : ∀ x ∈ acc, GoodText x) :
    ∀ x ∈ mergeStep ds gap acc u, GoodText x := by
  intro x hx
  by_cases ht : (strip u.text).isEmpty
  · have hstep : mergeStep ds gap acc u = acc := by
      simp only [mergeStep]
      rw [if_pos ht]
    rw [hstep] at hx
    exact hacc x hx
  · have htne : strip u.text ≠ [] := fun h => ht (by simp [h])
    cases acc with
    | nil =>
      simp only [mergeStep, if_neg ht] at hx
      rw [List.mem_singleton] at hx
      subst hx
      exact ⟨strip_idem _, htne⟩
    | cons last rest =>
      simp only [mergeStep, if_neg ht] at hx
      by_cases hcond : last.speaker = assign_speaker_for_interval u.start u.stop ds ∧
          u.start - last.stop ≤ gap
      · rw [if_pos hcond] at hx
        rcases List.mem_cons.mp hx with hx | hx
        · subst hx
          have hg := hacc last (List.mem_cons_self _ _)
          exact ⟨strip_idem _, strip_ne_nil_of_append hg.1 (strip_idem _) hg.2 htne⟩
        · exact hacc x (List.mem_cons_of_mem _ hx)
      · rw [if_neg hcond] at hx
        rcases List.mem_cons.mp hx with hx | hx
        · subst hx
          exact ⟨strip_idem _, htne⟩
        · exact hacc x hx

lemma merge_foldl_goodtext (ds : List SpeechSegment) (gap : ℚ) :
    ∀ (ts : List AsrUtterance) (acc : List SpeechSegment),
      (∀ x ∈ acc, GoodText x) →
      ∀ x ∈ ts.foldl (mergeStep ds gap) acc, GoodText x := by
  intro ts
  induction ts with
  | nil => intro acc hacc; simpa using hacc
  | cons u ts ih =>
    intro acc hacc
    rw [List.foldl_cons]
    exact ih _ (mergeStep_goodtext ds gap acc u hacc)

lemma mergeStep_skip (ds : List SpeechSegment) (gap : ℚ) (acc : List SpeechSegment)
    (u : AsrUtterance) (h : strip u.text = []) : mergeStep ds gap acc u = acc := by
  simp only [mergeStep]
  rw [if_pos (by simp [h])]

/-! ### Claim theorems: interval aligner -/

/-- C1: for every utterance interval and every sequence of diarized
segments decomposed as `pre ++ s :: post` where no segment of `pre`
contains the midpoint `(start + end) / 2` and `s` does contain it
(inclusively), `assign_speaker_for_interval` returns `s.speaker` — the
first containing segment in scan order wins, regardless of the temporal
overlap of any other segment. -/
theorem assign_speaker_midpoint_first_match
    (start stop : ℚ) (pre post : List SpeechSegment) (s : SpeechSegment)
    (hpre : ∀ t ∈ pre, ¬(t.start ≤ (start + stop) / 2 ∧ (start + stop) / 2 ≤ t.stop))
    (h1 : s.start ≤ (start + stop) / 2) (h2 : (start + stop) / 2 ≤ s.stop) :
    assign_speaker_for_interval start stop (pre ++ s :: post) = s.speaker := by
  simp only [assign_speaker_for_interval]
  rw [if_neg (by simp)]
  exact assignLoop_containment start stop _ _ pre s post none 0 hpre h1 h2

/-- Witness for C1: the midpoint 1 of the interval `[0, 2)` misses the
first diarized segment and lands in the second, whose speaker 3 is
returned. -/
theorem assign_speaker_midpoint_first_match_witness :
    assign_speaker_for_interval 0 2 [⟨4, 5, 7, []⟩, ⟨0, 2, 3, []⟩] = 3 :=
  assign_speaker_midpoint_first_match 0 2 [⟨4, 5, 7, []⟩] [] ⟨0, 2, 3, []⟩
    (by
      intro t ht
      rw [List.mem_singleton] at ht
      subst ht
      norm_num)
    (by norm_num) (by norm_num)

/-- C10: `assign_speaker_for_interval` is total and never invents a
speaker: it returns 0 on an empty segment sequence, and otherwise the
speaker field of some segment of the input sequence. -/
theorem assign_speaker_total (start stop : ℚ) (segments : List SpeechSegment) :
    (segments = [] → assign_speaker_for_interval start stop segments = 0)
    ∧ (segments ≠ [] →
        ∃ t ∈ segments, assign_speaker_for_interval start stop segments = t.speaker) := by
  constructor
  · intro h
    subst h
    rfl
  · intro h
    simp only [assign_speaker_for_interval]
    rw [if_neg (by simpa using h)]
    exact assignLoop_mem start stop _ segments h segments none 0
      (fun t ht => ht) (fun b hb => Option.noConfusion hb)

/-- Witness for C10 at concrete inputs: the empty sequence gives speaker
0, and a one-segment sequence yields that segment's speaker. -/
theorem assign_speaker_total_witness :
    assign_speaker_for_interval 0 1 [] = 0
    ∧ ∃ t ∈ [(⟨3, 4, 5, []⟩ : SpeechSegment)],
        assign_speaker_for_interval 0 1 [⟨3, 4, 5, []⟩] = t.speaker :=
  ⟨(assign_speaker_total 0 1 []).1 rfl,
   (assign_speaker_total 0 1 [⟨3, 4, 5, []⟩]).2 (by simp)⟩

/-! ### Claim theorems: transcript merger -/

/-- C2: when the next utterance has non-empty trimmed text, resolves to
the same speaker as the last accepted segment, and starts within
`merge_gap` of that segment's end, the merger produces no new segment:
the last segment's end becomes the utterance's end and its text becomes
the old text, one space, and the new trimmed text, in order. -/
theorem merge_coalesces_same_speaker_within_gap
    (us : List AsrUtterance) (u : AsrUtterance) (ds : List SpeechSegment) (gap : ℚ)
    (L : List SpeechSegment) (lastSeg : SpeechSegment)
    (hm : merge_transcript_segments us ds gap = L ++ [lastSeg])
    (ht : strip u.text ≠ [])
    (hsp : lastSeg.speaker = assign_speaker_for_interval u.start u.stop ds)
    (hgap : u.start - lastSeg.stop ≤ gap) :
    merge_transcript_segments (us ++ [u]) ds gap
      = L ++ [{ lastSeg with stop := u.stop, text := lastSeg.text ++ ' ' :: strip u.text }] := by
  have hacc : us.foldl (mergeStep ds gap) [] = lastSeg :: L.reverse := by
    have h1 : (us.foldl (mergeStep ds gap) []).reverse = L ++ [lastSeg] := hm
    rw [List.reverse_eq_iff] at h1
    rw [h1]
    simp
  have hlast_good : GoodText lastSeg := by
    apply merge_foldl_goodtext ds gap us [] (by simp)
    rw [hacc]
    exact List.mem_cons_self _ _
  unfold merge_transcript_segments
  rw [List.foldl_append, hacc]
  simp only [List.foldl_cons, List.foldl_nil]
  simp only [mergeStep]
  rw [if_neg (by simpa using ht), if_pos ⟨hsp, hgap⟩,
    strip_append_stripped hlast_good.1 (strip_idem _) hlast_good.2 ht]
  simp

/-- Witness for C2: two utterances whose midpoints land in the same
diarized segment and whose gap is 1/5 ≤ 3/2 coalesce into one segment
with the space-joined text. -/
theorem merge_coalesces_same_speaker_within_gap_witness :
    merge_transcript_segments
        [⟨0, 1, ['h', 'i']⟩, ⟨6 / 5, 2, ['y', 'o']⟩] [⟨0, 3, 0, []⟩] (3 / 2)
      = [⟨0, 2, 0, ['h', 'i', ' ', 'y', 'o']⟩] := by
  have hstrip1 : strip ['h', 'i'] = ['h', 'i'] := by decide
  have hstrip2 : strip ['y', 'o'] = ['y', 'o'] := by decide
  have hassign : ∀ a b : ℚ, 0 ≤ (a + b) / 2 → (a + b) / 2 ≤ 3 →
      assign_speaker_for_interval a b [⟨0, 3, 0, []⟩] = 0 := by
    intro a b h1 h2
    simp only [assign_speaker_for_interval, assignLoop]
    rw [if_neg (by simp)]
    rw [if_pos ⟨h1, h2⟩]
  have h := merge_coalesces_same_speaker_within_gap
    [⟨0, 1, ['h', 'i']⟩] ⟨6 / 5, 2, ['y', 'o']⟩ [⟨0, 3, 0, []⟩] (3 / 2)
    [] ⟨0, 1, 0, ['h', 'i']⟩
    (by
      simp only [merge_transcript_segments, List.foldl_cons, List.foldl_nil, mergeStep,
        hstrip1]
      rw [hassign 0 1 (by norm_num) (by norm_num)]
      simp)
    (by
      show strip ['y', 'o'] ≠ []
      decide)
    (by
      show (0 : ℤ) = _
      rw [hassign (6 / 5) 2 (by norm_num) (by norm_num)])
    (by norm_num)
  rw [hstrip2] at h
  simpa using h

/-- C9: utterances with empty trimmed text are dropped by the merger —
removing such an utterance anywhere in the input changes nothing, so it
neither creates, extends, nor breaks a coalescing chain — and every
output segment of the merger has non-empty text. -/
theorem merge_skips_empty_text_and_output_nonempty :
    (∀ (us₁ us₂ : List AsrUtterance) (u : AsrUtterance) (ds : List SpeechSegment)
       (gap : ℚ), strip u.text = [] →
       merge_transcript_segments (us₁ ++ u :: us₂) ds gap
         = merge_transcript_segments (us₁ ++ us₂) ds gap)
    ∧ (∀ (ts : List AsrUtterance) (ds : List SpeechSegment) (gap : ℚ),
       ∀ x ∈ merge_transcript_segments ts ds gap, x.text ≠ []) := by
  constructor
  · intro us₁ us₂ u ds gap h
    unfold merge_transcript_segments
    rw [List.foldl_append, List.foldl_append, List.foldl_cons,
      mergeStep_skip ds gap _ u h]
  · intro ts ds gap x hx
    rw [merge_transcript_segments, List.mem_reverse] at hx
    exact (merge_foldl_goodtext ds gap ts [] (by simp) x hx).2

/-- Witness for C9: a whitespace-only utterance between two others is
dropped without breaking their merge, and the outputs have non-empty
text. -/
theorem merge_skips_empty_text_and_output_nonempty_witness :
    merge_transcript_segments
        [⟨0, 1, ['h', 'i']⟩, ⟨11 / 10, 6 / 5, [' ']⟩, ⟨6 / 5, 2, ['y', 'o']⟩] [] (3 / 2)
      = merge_transcript_segments [⟨0, 1, ['h', 'i']⟩, ⟨6 / 5, 2, ['y', 'o']⟩] [] (3 / 2)
    ∧ ∀ x ∈ merge_transcript_segments [⟨0, 1, ['h', 'i']⟩] [] (3 / 2), x.text ≠ [] :=
  ⟨merge_skips_empty_text_and_output_nonempty.1
      [⟨0, 1, ['h', 'i']⟩] [⟨6 / 5, 2, ['y', 'o']⟩] ⟨11 / 10, 6 / 5, [' ']⟩ [] (3 / 2)
      (by decide),
   merge_skips_empty_text_and_output_nonempty.2 [⟨0, 1, ['h', 'i']⟩] [] (3 / 2)⟩

/-! ### Lemmas about `estimate_speaker_count`'s sweep -/

lemma sweep_foldl_eq (cluster : Clusterer) (score : Scorer)
    (features : List (List ℚ)) (rows : ℤ) :
    ∀ (ks : List ℤ) (acc : ℚ × ℤ),
      ks.foldl (fun acc k =>
          if k ≤ 1 ∨ rows < k then acc
          else
            let labels := cluster features k
            if labels.dedup.length ≤ 1 then acc
            else sweepStep acc (k, score features labels)) acc
      = (ks.filterMap (fun k =>
          if k ≤ 1 ∨ rows < k then none
          else
            let labels := cluster features k
            if labels.dedup.length ≤ 1 then none
            else some (k, score features labels))).foldl sweepStep acc := by
  intro ks
  induction ks with
  | nil => intro acc; rfl
  | cons k ks ih =>
    intro acc
    rw [List.foldl_cons, List.filterMap_cons]
    by_cases h1 : k ≤ 1 ∨ rows < k
    · simp only [if_pos h1]
      exact ih acc
    · simp only [if_neg h1]
      by_cases h2 : (cluster features k).dedup.length ≤ 1
      · simp only [if_pos h2]
        exact ih acc
      · simp only [if_neg h2, List.foldl_cons]
        exact ih _

lemma sweepFold_spec :
    ∀ (l : List (ℤ × ℚ)) (s₀ : ℚ) (k₀ : ℤ),
      (l.foldl sweepStep (s₀, k₀) = (s₀, k₀) ∧ ∀ c ∈ l, c.2 ≤ s₀)
      ∨ (∃ pre c post, l = pre ++ c :: post
          ∧ l.foldl sweepStep (s₀, k₀) = (c.2, c.1)
          ∧ s₀ < c.2 ∧ (∀ d ∈ pre, d.2 < c.2) ∧ (∀ d ∈ post, d.2 ≤ c.2)) := by
  intro l
  induction l with
  | nil => intro s₀ k₀; left; exact ⟨rfl, by simp⟩
  | cons x l ih =>
    intro s₀ k₀
    rw [List.foldl_cons]
    by_cases hx : s₀ < x.2
    · have hstep : sweepStep (s₀, k₀) x = (x.2, x.1) := by
        simp only [sweepStep]
        rw [if_pos hx]
      rw [hstep]
      rcases ih x.2 x.1 with ⟨heq, hall⟩ | ⟨pre, c, post, hl, heq, hgt, hpre, hpost⟩
      · right
        exact ⟨[], x, l, by simp, heq, hx, by simp, hall⟩
      · right
        refine ⟨x :: pre, c, post, by rw [hl, List.cons_append], heq, lt_trans hx hgt, ?_, hpost⟩
        intro d hd
        rcases List.mem_cons.mp hd with rfl | hd
        · exact hgt
        · exact hpre d hd
    · have hstep : sweepStep (s₀, k₀) x = (s₀, k₀) := by
        simp only [sweepStep]
        rw [if_neg hx]
      rw [hstep]
      rcases ih s₀ k₀ with ⟨heq, hall⟩ | ⟨pre, c, post, hl, heq, hgt, hpre, hpost⟩
      · left
        refine ⟨heq, ?_⟩
        intro c hc
        rcases List.mem_cons.mp hc with rfl | hc
        · exact le_of_not_lt hx
        · exact hall c hc
      · right
        refine ⟨x :: pre, c, post, by rw [hl, List.cons_append], heq, hgt, ?_, hpost⟩
        intro d hd
        rcases List.mem_cons.mp hd with rfl | hd
        · exact lt_of_le_of_lt (le_of_not_lt hx) hgt
        · exact hpre d hd

lemma sweepCandidates_k_ge_two (cluster : Clusterer) (score : Scorer)
    (features : List (List ℚ)) (o : DiarOptions) :
    ∀ c ∈ sweepCandidates cluster score features o, 2 ≤ c.1 := by
  intro c hc
  simp only [sweepCandidates, List.mem_filterMap] at hc
  obtain ⟨k, _, hck⟩ := hc
  by_cases h1 : k ≤ 1 ∨ ((features.length : ℤ)) < k
  · rw [if_pos h1] at hck
    cases hck
  · rw [if_neg h1] at hck
    by_cases h2 : (cluster features k).dedup.length ≤ 1
    · rw [if_pos h2] at hck
      cases hck
    · rw [if_neg h2] at hck
      cases hck
      push_neg at h1
      omega

lemma estimate_eq_sweep (cluster : Clusterer) (score : Scorer)
    (features : List (List ℚ)) (o : DiarOptions)
    (hnum : o.num_speakers = none) (hrows : 2 ≤ features.length) :
    estimate_speaker_count cluster score features o
      = (if ((sweepCandidates cluster score features o).foldl sweepStep ((-1 : ℚ), (1 : ℤ))).2 ≤ 1
         then 1
         else ((sweepCandidates cluster score features o).foldl sweepStep ((-1 : ℚ), (1 : ℤ))).2) := by
  simp only [estimate_speaker_count, sweepCandidates]
  rw [hnum]
  rw [if_neg (by omega), if_neg (by simp [pyTruthyInt])]
  rw [sweep_foldl_eq cluster score features ((features.length : ℤ))]

/-! ### Claim theorems: speaker-count estimator -/

/-- C4 counterexample: supplying `num_speakers = 0` does not short-circuit
to `max(1, 0) = 1`; Python's truthiness test sends 0 into the sweep, which
here returns 2. -/
theorem estimate_zero_override_counterexample :
    estimate_speaker_count (fun _ _ => [0, 1]) (fun _ _ => 0) [[0], [1]]
        { min_speakers := none, max_speakers := none, num_speakers := some 0 } = 2
    ∧ (2 : ℤ) ≠ max 1 0 := by
  constructor
  · decide
  · decide

/-- C4 (amended): when the supplied `num_speakers` is nonzero (Python
truthiness) and the feature matrix has at least two rows,
`estimate_speaker_count` returns exactly `max 1 num_speakers` for every
clusterer and scorer — no sweep is consulted. -/
theorem estimate_truthy_override (cluster : Clusterer) (score : Scorer)
    (features : List (List ℚ)) (o : DiarOptions) (n : ℤ)
    (hn : o.num_speakers = some n) (hnz : n ≠ 0) (hrows : 2 ≤ features.length) :
    estimate_speaker_count cluster score features o = max 1 n := by
  simp only [estimate_speaker_count]
  rw [hn, if_neg (by omega), if_pos (by simp [pyTruthyInt, hnz])]
  simp

/-- Witness for C4 (amended) at `num_speakers = 3` on a two-row matrix. -/
theorem estimate_truthy_override_witness :
    estimate_speaker_count (fun _ _ => []) (fun _ _ => 0) [[0], [1]]
        { min_speakers := none, max_speakers := none, num_speakers := some 3 } = max 1 3 :=
  estimate_truthy_override _ _ _ _ 3 rfl (by decide) (by decide)

/-- C6 counterexample: the sweep initialises its best score to `-1` and
requires a strict improvement, so a valid two-label candidate with score
`-1` is rejected and the estimator returns 1 instead of that candidate's
`k = 2`. -/
theorem estimate_sweep_sentinel_counterexample :
    sweepCandidates (fun _ _ => [0, 1]) (fun _ _ => -1) [[0], [1]]
        { min_speakers := none, max_speakers := none, num_speakers := none } = [(2, -1)]
    ∧ estimate_speaker_count (fun _ _ => [0, 1]) (fun _ _ => -1) [[0], [1]]
        { min_speakers := none, max_speakers := none, num_speakers := none } = 1
    ∧ (1 : ℤ) ≠ 2 := by
  refine ⟨?_, ?_, by decide⟩
  · decide
  · decide

/-- C6 (amended): with no `num_speakers` override and at least two
feature rows, the sweep examines exactly the candidates of
`sweepCandidates` (k from `min_speakers` to `min(max_speakers, rows)`,
skipping `k ≤ 1` and single-label clusterings); if every candidate scores
`≤ -1` (in particular if there are none) the estimator returns 1, and
otherwise it returns the first candidate whose score strictly exceeds all
earlier candidates' scores and is at least every other candidate's score
— so equal scores favour the earliest (smallest) `k`. -/
theorem estimate_sweep_first_argmax (cluster : Clusterer) (score : Scorer)
    (features : List (List ℚ)) (o : DiarOptions)
    (hnum : o.num_speakers = none) (hrows : 2 ≤ features.length) :
    ((∀ c ∈ sweepCandidates cluster score features o, c.2 ≤ -1) →
      estimate_speaker_count cluster score features o = 1)
    ∧ ((∃ c ∈ sweepCandidates cluster score features o, -1 < c.2) →
      ∃ pre c post, sweepCandidates cluster score features o = pre ++ c :: post
        ∧ estimate_speaker_count cluster score features o = c.1
        ∧ -1 < c.2 ∧ (∀ d ∈ pre, d.2 < c.2)
        ∧ (∀ d ∈ sweepCandidates cluster score features o, d.2 ≤ c.2)) := by
  have hest := estimate_eq_sweep cluster score features o hnum hrows
  rcases sweepFold_spec (sweepCandidates cluster score features o) (-1) 1 with
    ⟨heq, hall⟩ | ⟨pre, c, post, hl, heq, hgt, hpre, hpost⟩
  · constructor
    · intro _
      rw [hest, heq]
      simp
    · intro ⟨c, hc, hcgt⟩
      exact absurd (hall c hc) (not_le.mpr hcgt)
  · have hcmem : c ∈ sweepCandidates cluster score features o := by
      rw [hl]
      exact List.mem_append_right _ (List.mem_cons_self _ _)
    constructor
    · intro hle
      exact absurd (hle c hcmem) (not_le.mpr hgt)
    · intro _
      refine ⟨pre, c, post, hl, ?_, hgt, hpre, ?_⟩
      · rw [hest, heq]
        have := sweepCandidates_k_ge_two cluster score features o c hcmem
        rw [if_neg (by omega)]
      · intro d hd
        rw [hl] at hd
        rcases List.mem_append.mp hd with hd | hd
        · exact le_of_lt (hpre d hd)
        · rcases List.mem_cons.mp hd with rfl | hd
          · exact le_refl _
          · exact hpost d hd

/-- Witness for C6 (amended): a single valid candidate `(2, 0)` with score
above `-1` is selected. -/
theorem estimate_sweep_first_argmax_witness :
    ∃ pre c post,
      sweepCandidates (fun _ _ => [0, 1]) (fun _ _ => 0) [[0], [1]]
          { min_speakers := none, max_speakers := none, num_speakers := none }
        = pre ++ c :: post
      ∧ estimate_speaker_count (fun _ _ => [0, 1]) (fun _ _ => 0) [[0], [1]]
          { min_speakers := none, max_speakers := none, num_speakers := none } = c.1
      ∧ -1 < c.2 ∧ (∀ d ∈ pre, d.2 < c.2)
      ∧ (∀ d ∈ sweepCandidates (fun _ _ => [0, 1]) (fun _ _ => 0) [[0], [1]]
          { min_speakers := none, max_speakers := none, num_speakers := none }, d.2 ≤ c.2) :=
  (estimate_sweep_first_argmax (fun _ _ => [0, 1]) (fun _ _ => 0) [[0], [1]]
      { min_speakers := none, max_speakers := none, num_speakers := none }
      rfl (by decide)).2
    ⟨(2, 0), by decide, by decide⟩

/-! ### Lemmas about the VAD scan -/

lemma pushSeg_props (dur minSil s e : ℚ) (acc : List (ℚ × ℚ))
    (hs0 : 0 ≤ s) (hse : s ≤ e) (hed : e ≤ dur)
    (hb : ∀ p ∈ acc, 0 ≤ p.1 ∧ p.1 ≤ p.2 ∧ p.2 ≤ dur)
    (hends : ∀ p ∈ acc, p.2 ≤ e)
    (hpw : 0 ≤ minSil → List.Pairwise (fun a b : ℚ × ℚ => b.2 ≤ a.1) acc) :
    (∀ p ∈ pushSeg acc s e minSil, 0 ≤ p.1 ∧ p.1 ≤ p.2 ∧ p.2 ≤ dur)
    ∧ (∀ p ∈ pushSeg acc s e minSil, p.2 ≤ e)
    ∧ (0 ≤ minSil →
        List.Pairwise (fun a b : ℚ × ℚ => b.2 ≤ a.1) (pushSeg acc s e minSil)) := by
  cases acc with
  | nil =>
    refine ⟨?_, ?_, ?_⟩
    · intro p hp
      rw [pushSeg, List.mem_singleton] at hp
      subst hp
      exact ⟨hs0, hse, hed⟩
    · intro p hp
      rw [pushSeg, List.mem_singleton] at hp
      subst hp
      exact le_refl _
    · intro _
      rw [pushSeg]
      simp
  | cons q rest =>
    obtain ⟨ps, pe⟩ := q
    have hq := hb (ps, pe) (List.mem_cons_self _ _)
    have hqe := hends (ps, pe) (List.mem_cons_self _ _)
    by_cases hgap : s - pe < minSil
    · have hpush : pushSeg ((ps, pe) :: rest) s e minSil = (ps, e) :: rest := by
        rw [pushSeg, if_pos hgap]
      rw [hpush]
      refine ⟨?_, ?_, ?_⟩
      · intro p hp
        rcases List.mem_cons.mp hp with rfl | hp
        · exact ⟨hq.1, le_trans hq.2.1 hqe, hed⟩
        · exact hb p (List.mem_cons_of_mem _ hp)
      · intro p hp
        rcases List.mem_cons.mp hp with rfl | hp
        · exact le_refl _
        · exact hends p (List.mem_cons_of_mem _ hp)
      · intro hsil
        have hold := hpw hsil
        rw [List.pairwise_cons] at hold ⊢
        exact ⟨hold.1, hold.2⟩
    · have hpush : pushSeg ((ps, pe) :: rest) s e minSil = (s, e) :: (ps, pe) :: rest := by
        rw [pushSeg, if_neg hgap]
      rw [hpush]
      refine ⟨?_, ?_, ?_⟩
      · intro p hp
        rcases List.mem_cons.mp hp with rfl | hp
        · exact ⟨hs0, hse, hed⟩
        · exact hb p hp
      · intro p hp
        rcases List.mem_cons.mp hp with rfl | hp
        · exact le_refl _
        · exact hends p hp
      · intro hsil
        have hpes : pe ≤ s := by
          rw [not_lt] at hgap
          linarith
        have hold := hpw hsil
        rw [List.pairwise_cons]
        refine ⟨?_, hold⟩
        intro b hb'
        rcases List.mem_cons.mp hb' with rfl | hb'
        · exact hpes
        · have := (List.pairwise_cons.mp hold).1 b hb'
          linarith [hq.2.1]

lemma vadScanAux_props (hop fl dur minSil : ℚ)
    (hhop : 0 ≤ hop) (hfl : 0 ≤ fl) :
    ∀ (flags : List Bool) (i : ℕ) (cur : Option ℕ) (acc : List (ℚ × ℚ)),
      (∀ j : ℕ, j < i + flags.length → (j : ℚ) * hop ≤ dur) →
      (∀ cs, cur = some cs → cs < i ∧ (cs : ℚ) * hop ≤ dur) →
      (∀ p ∈ acc, 0 ≤ p.1 ∧ p.1 ≤ p.2 ∧ p.2 ≤ dur) →
      (∀ p ∈ acc, p.2 ≤ min dur ((i : ℚ) * hop + fl)) →
      (0 ≤ minSil → List.Pairwise (fun a b : ℚ × ℚ => b.2 ≤ a.1) acc) →
      (∀ p ∈ vadScanAux hop fl dur minSil flags i cur acc,
          0 ≤ p.1 ∧ p.1 ≤ p.2 ∧ p.2 ≤ dur)
      ∧ (0 ≤ minSil →
          List.Pairwise (fun a b : ℚ × ℚ => b.2 ≤ a.1)
            (vadScanAux hop fl dur minSil flags i cur acc)) := by
  intro flags
  induction flags with
  | nil =>
    intro i cur acc hidx hcur hb h4 hpw
    cases cur with
    | none =>
      simp only [vadScanAux]
      exact ⟨hb, hpw⟩
    | some cs =>
      obtain ⟨hcsi, hcsd⟩ := hcur cs rfl
      simp only [vadScanAux]
      have hp := pushSeg_props dur minSil ((cs : ℚ) * hop) dur acc
        (mul_nonneg (by positivity) hhop) hcsd (le_refl _) hb
        (fun p hp => (hb p hp).2.2) hpw
      exact ⟨hp.1, hp.2.2⟩
  | cons b rest ih =>
    intro i cur acc hidx hcur hb h4 hpw
    have hmono : min dur ((i : ℚ) * hop + fl) ≤ min dur (((i : ℕ) + 1 : ℕ) * hop + fl) := by
      apply min_le_min (le_refl _)
      push_cast
      nlinarith
    cases b with
    | true =>
      cases cur with
      | none =>
        simp only [vadScanAux]
        apply ih (i + 1) (some i) acc
        · intro j hj
          apply hidx
          simp only [List.length_cons]
          omega
        · intro cs hcs
          cases hcs
          refine ⟨Nat.lt_succ_self i, hidx i ?_⟩
          simp only [List.length_cons]
          omega
        · exact hb
        · intro p hp
          exact le_trans (h4 p hp) hmono
        · exact hpw
      | some cs =>
        simp only [vadScanAux]
        apply ih (i + 1) (some cs) acc
        · intro j hj
          apply hidx
          simp only [List.length_cons]
          omega
        · intro cs' hcs'
          cases hcs'
          obtain ⟨h1, h2⟩ := hcur cs rfl
          exact ⟨Nat.lt_succ_of_lt h1, h2⟩
        · exact hb
        · intro p hp
          exact le_trans (h4 p hp) hmono
        · exact hpw
    | false =>
      cases cur with
      | none =>
        simp only [vadScanAux]
        apply ih (i + 1) none acc
        · intro j hj
          apply hidx
          simp only [List.length_cons]
          omega
        · intro cs hcs
          cases hcs
        · exact hb
        · intro p hp
          exact le_trans (h4 p hp) hmono
        · exact hpw
      | some cs =>
        obtain ⟨hcsi, hcsd⟩ := hcur cs rfl
        have hse : (cs : ℚ) * hop ≤ min dur ((i : ℚ) * hop + fl) := by
          apply le_min hcsd
          have h1 : (cs : ℚ) ≤ (i : ℚ) := by
            exact_mod_cast le_of_lt hcsi
          nlinarith
        have hp := pushSeg_props dur minSil ((cs : ℚ) * hop)
          (min dur ((i : ℚ) * hop + fl)) acc
          (mul_nonneg (by positivity) hhop) hse (min_le_left _ _) hb h4 hpw
        simp only [vadScanAux]
        apply ih (i + 1) none _
        · intro j hj
          apply hidx
          simp only [List.length_cons]
          omega
        · intro cs' hcs'
          cases hcs'
        · exact hp.1
        · intro p hp'
          exact le_trans (hp.2.1 p hp') hmono
        · exact hp.2.2

lemma hopSamples_pos (sr : ℕ) (o : VadOptions) : 0 < hopSamples sr o := by
  unfold hopSamples
  have h : (1 : ℤ) ≤ max 1 (pyInt (vadHopLen o * sr)) := le_max_left _ _
  omega

lemma vadSegments_props (audio : List ℚ) (sr : ℕ) (o : VadOptions)
    (hsr : 0 < sr) (hfl : 0 ≤ vadFrameLen o) (hhop : 0 ≤ vadHopLen o)
    (hhs : vadHopLen o * sr ≤ (hopSamples sr o : ℚ)) :
    (∀ p ∈ vadSegments audio sr o, 0 ≤ p.1 ∧ p.1 ≤ p.2 ∧ p.2 ≤ vadDuration audio sr)
    ∧ (0 ≤ vadMinSilence o →
        List.Pairwise (fun a b : ℚ × ℚ => a.2 ≤ b.1) (vadSegments audio sr o)) := by
  have hflagslen :
      (speechFlags (vadEnergies audio sr o)
        (vadThreshold (vadEnergies audio sr o) o)).length
      = numFrames audio.length (frameSamples sr o) (hopSamples sr o) := by
    simp [speechFlags, vadEnergies, frameStarts]
  have hidx : ∀ j : ℕ,
      j < 0 + (speechFlags (vadEnergies audio sr o)
        (vadThreshold (vadEnergies audio sr o) o)).length →
      (j : ℚ) * vadHopLen o ≤ vadDuration audio sr := by
    intro j hj
    rw [hflagslen] at hj
    have hj' : j ≤ (audio.length - frameSamples sr o) / hopSamples sr o := by
      unfold numFrames at hj
      omega
    have h1 : j * hopSamples sr o ≤ audio.length - frameSamples sr o :=
      (Nat.le_div_iff_mul_le (hopSamples_pos sr o)).mp hj'
    have h2 : (j : ℚ) * (hopSamples sr o : ℚ) ≤ (audio.length : ℚ) := by
      calc (j : ℚ) * (hopSamples sr o : ℚ)
          = ((j * hopSamples sr o : ℕ) : ℚ) := by push_cast; ring
        _ ≤ ((audio.length - frameSamples sr o : ℕ) : ℚ) := Nat.cast_le.mpr h1
        _ ≤ (audio.length : ℚ) := Nat.cast_le.mpr (Nat.sub_le _ _)
    have hsr' : (0 : ℚ) < (sr : ℚ) := by exact_mod_cast hsr
    have h3 : vadHopLen o ≤ (hopSamples sr o : ℚ) / (sr : ℚ) := (le_div_iff₀ hsr').mpr hhs
    calc (j : ℚ) * vadHopLen o
        ≤ (j : ℚ) * ((hopSamples sr o : ℚ) / (sr : ℚ)) :=
          mul_le_mul_of_nonneg_left h3 (by positivity)
      _ = ((j : ℚ) * (hopSamples sr o : ℚ)) / (sr : ℚ) := (mul_div_assoc _ _ _).symm
      _ ≤ (audio.length : ℚ) / (sr : ℚ) := by gcongr
      _ = vadDuration audio sr := rfl
  have hmain := vadScanAux_props (vadHopLen o) (vadFrameLen o) (vadDuration audio sr)
    (vadMinSilence o) hhop hfl
    (speechFlags (vadEnergies audio sr o) (vadThreshold (vadEnergies audio sr o) o))
    0 none [] hidx (by intro cs h; cases h) (by simp) (by simp) (by intro _; simp)
  constructor
  · intro p hp
    simp only [vadSegments, List.mem_reverse] at hp
    exact hmain.1 p hp
  · intro hsil
    simp only [vadSegments]
    rw [List.pairwise_reverse]
    exact hmain.2 hsil

lemma energy_vad_props (audio : List ℚ) (sr : ℕ) (o : VadOptions)
    (hsr : 0 < sr) (hfl : 0 ≤ vadFrameLen o) (hhop : 0 ≤ vadHopLen o)
    (hhs : vadHopLen o * sr ≤ (hopSamples sr o : ℚ)) :
    (∀ p ∈ energy_vad audio sr o, 0 ≤ p.1 ∧ p.1 ≤ p.2 ∧ p.2 ≤ vadDuration audio sr)
    ∧ (0 ≤ vadMinSilence o →
        List.Pairwise (fun a b : ℚ × ℚ => a.2 ≤ b.1) (energy_vad audio sr o)) := by
  have hdur : 0 ≤ vadDuration audio sr := by
    unfold vadDuration
    positivity
  have hsingle : (∀ p ∈ [((0 : ℚ), vadDuration audio sr)],
        0 ≤ p.1 ∧ p.1 ≤ p.2 ∧ p.2 ≤ vadDuration audio sr)
      ∧ (0 ≤ vadMinSilence o →
          List.Pairwise (fun a b : ℚ × ℚ => a.2 ≤ b.1)
            [((0 : ℚ), vadDuration audio sr)]) := by
    constructor
    · intro p hp
      rw [List.mem_singleton] at hp
      subst hp
      exact ⟨le_refl _, hdur, le_refl _⟩
    · intro _
      simp
  by_cases h1 : audio.length < frameSamples sr o
  · have hv : energy_vad audio sr o = [(0, vadDuration audio sr)] := by
      simp only [energy_vad]
      rw [if_pos h1]
    rw [hv]
    exact hsingle
  · by_cases h2 : (vadEnergies audio sr o).isEmpty
    · have hv : energy_vad audio sr o = [(0, vadDuration audio sr)] := by
        simp only [energy_vad]
        rw [if_neg h1, if_pos h2]
      rw [hv]
      exact hsingle
    · have hprops := vadSegments_props audio sr o hsr hfl hhop hhs
      have hv : energy_vad audio sr o
          = if (vadRefine (vadSegments audio sr o) o).isEmpty
            then [(0, vadDuration audio sr)]
            else vadRefine (vadSegments audio sr o) o := by
        simp only [energy_vad]
        rw [if_neg h1, if_neg h2]
      rw [hv]
      by_cases h3 : (vadRefine (vadSegments audio sr o) o).isEmpty
      · rw [if_pos h3]
        exact hsingle
      · rw [if_neg h3]
        have hsub : (vadRefine (vadSegments audio sr o) o).Sublist (vadSegments audio sr o) := by
          rw [vadRefine]
          exact List.filter_sublist _
        constructor
        · intro p hp
          rw [vadRefine, List.mem_filter] at hp
          exact hprops.1 p hp.1
        · intro hsil
          exact List.Pairwise.sublist hsub (hprops.2 hsil)

lemma vadScanAux_all_false (hop fl dur minSil : ℚ) :
    ∀ (flags : List Bool) (i : ℕ), (∀ b ∈ flags, b = false) →
      vadScanAux hop fl dur minSil flags i none [] = [] := by
  intro flags
  induction flags with
  | nil => intro i _; rfl
  | cons b rest ih =>
    intro i hb
    have hbf : b = false := hb b (List.mem_cons_self _ _)
    subst hbf
    simp only [vadScanAux]
    exact ih (i + 1) (fun x hx => hb x (List.mem_cons_of_mem _ hx))

/-! ### Claim theorems: energy VAD -/

/-- C3: `energy_vad` never returns an empty list, and in each degenerate
case — buffer shorter than one frame, empty energies list, no frame
energy above the threshold, or every candidate interval shorter than
`min_speech` — it returns exactly the whole-buffer interval
`[(0, duration)]`. -/
theorem energy_vad_never_empty_and_degenerate (audio : List ℚ) (sr : ℕ) (o : VadOptions) :
    energy_vad audio sr o ≠ []
    ∧ (audio.length < frameSamples sr o →
        energy_vad audio sr o = [(0, vadDuration audio sr)])
    ∧ (vadEnergies audio sr o = [] →
        energy_vad audio sr o = [(0, vadDuration audio sr)])
    ∧ ((∀ e ∈ vadEnergies audio sr o, e ≤ vadThreshold (vadEnergies audio sr o) o) →
        energy_vad audio sr o = [(0, vadDuration audio sr)])
    ∧ ((∀ p ∈ vadSegments audio sr o, p.2 - p.1 < vadMinSpeech o) →
        energy_vad audio sr o = [(0, vadDuration audio sr)]) := by
  refine ⟨?_, ?_, ?_, ?_, ?_⟩
  · simp only [energy_vad]
    split_ifs with h1 h2 h3
    · simp
    · simp
    · simp
    · simpa using h3
  · intro h
    simp only [energy_vad]
    rw [if_pos h]
  · intro h
    by_cases h1 : audio.length < frameSamples sr o
    · simp only [energy_vad]
      rw [if_pos h1]
    · simp only [energy_vad]
      rw [if_neg h1, if_pos (by simp [h])]
  · intro h
    by_cases h1 : audio.length < frameSamples sr o
    · simp only [energy_vad]
      rw [if_pos h1]
    · by_cases h2 : (vadEnergies audio sr o).isEmpty
      · simp only [energy_vad]
        rw [if_neg h1, if_pos h2]
      · have hflags : ∀ b ∈ speechFlags (vadEnergies audio sr o)
            (vadThreshold (vadEnergies audio sr o) o), b = false := by
          intro b hb
          simp only [speechFlags, List.mem_map] at hb
          obtain ⟨e, he, hbe⟩ := hb
          rw [← hbe]
          exact decide_eq_false (not_lt.mpr (h e he))
        have hseg : vadSegments audio sr o = [] := by
          simp only [vadSegments]
          rw [vadScanAux_all_false _ _ _ _ _ 0 hflags]
          rfl
        simp only [energy_vad]
        rw [if_neg h1, if_neg h2, if_pos (by simp [vadRefine, hseg])]
  · intro h
    by_cases h1 : audio.length < frameSamples sr o
    · simp only [energy_vad]
      rw [if_pos h1]
    · by_cases h2 : (vadEnergies audio sr o).isEmpty
      · simp only [energy_vad]
        rw [if_neg h1, if_pos h2]
      · have hrefine : vadRefine (vadSegments audio sr o) o = [] := by
          rw [vadRefine, List.filter_eq_nil_iff]
          intro p hp
          simp only [decide_eq_true_eq]
          exact not_le.mpr (h p hp)
        simp only [energy_vad]
        rw [if_neg h1, if_neg h2, if_pos (by simp [hrefine])]

/-- Witness for C3: an empty buffer is shorter than one frame, so the
whole-buffer fallback fires and the output is non-empty. -/
theorem energy_vad_never_empty_and_degenerate_witness :
    energy_vad [] 1 {} ≠ [] ∧ energy_vad [] 1 {} = [(0, vadDuration [] 1)] :=
  ⟨(energy_vad_never_empty_and_degenerate [] 1 {}).1,
   (energy_vad_never_empty_and_degenerate [] 1 {}).2.1
     (by norm_num [frameSamples, vadFrameLen, pyInt])⟩

/-- C5 (amended): the VAD threshold is the supplied `thr` whenever `thr`
is present and nonzero; when `thr` is absent or zero (Python falsiness),
it is the supplied `threshold` value whenever that key is present (even
with value zero); otherwise it is `mean + std * threshold_multiplier`.
In particular `thr = 0` alone does not override the automatic
threshold. -/
theorem vad_threshold_selection (energies : List ℝ) (o : VadOptions) :
    (∀ v : ℚ, o.thr = some v → v ≠ 0 → vadThreshold energies o = (v : ℝ))
    ∧ (∀ w : ℚ, (o.thr = none ∨ o.thr = some 0) → o.threshold = some w →
        vadThreshold energies o = (w : ℝ))
    ∧ ((o.thr = none ∨ o.thr = some 0) → o.threshold = none →
        vadThreshold energies o
          = listMean energies + listStd energies * (vadThresholdMult o : ℝ)) := by
  refine ⟨?_, ?_, ?_⟩
  · intro v hv hnz
    simp [vadThreshold, manualThreshold, hv, hnz]
  · intro w hthr hth
    rcases hthr with h | h
    · simp [vadThreshold, manualThreshold, h, hth]
    · simp [vadThreshold, manualThreshold, h, hth]
  · intro hthr hth
    rcases hthr with h | h
    · simp [vadThreshold, manualThreshold, h, hth]
    · simp [vadThreshold, manualThreshold, h, hth]

/-- Witness for C5 (amended): a nonzero `thr = 1` is taken verbatim as
the threshold. -/
theorem vad_threshold_selection_witness :
    vadThreshold [] { thr := some 1 } = ((1 : ℚ) : ℝ) :=
  (vad_threshold_selection [] { thr := some 1 }).1 1 rfl (by norm_num)

/-- C5 counterexample: on the two-sample buffer `[1, 1]` (two one-sample
frames of energy 1) with `thr = 0` supplied, the claim demands threshold
0, but Python's `or` treats 0 as absent and the automatic threshold
`mean + std * multiplier = 1` is used instead. -/
theorem vad_threshold_zero_thr_counterexample :
    vadThreshold (vadEnergies [1, 1] 1 { thr := some 0 }) { thr := some 0 } = 1
    ∧ (1 : ℝ) ≠ 0 := by
  constructor
  · have hfs : frameSamples 1 ({ thr := some 0 } : VadOptions) = 1 := by
      norm_num [frameSamples, vadFrameLen, pyInt]
    have hhs : hopSamples 1 ({ thr := some 0 } : VadOptions) = 1 := by
      norm_num [hopSamples, vadHopLen, pyInt]
    have hen : vadEnergies [1, 1] 1 { thr := some 0 } = [1, 1] := by
      simp only [vadEnergies]
      rw [hfs, hhs]
      norm_num [frameStarts, numFrames, List.range'_succ, rmsEnergy]
    rw [hen]
    norm_num [vadThreshold, manualThreshold, listMean, listStd, vadThresholdMult,
      Real.sqrt_zero]
  · norm_num

/-- C7 (amended): every interval returned by `energy_vad` satisfies
`0 ≤ start ≤ end ≤ duration`, provided the effective frame and hop
lengths are nonnegative, the sample rate is positive, and
`hop_length * sr` does not exceed the truncated `hop_samples` (which
holds whenever `hop_length * sr` is a whole number or at most 1). -/
theorem energy_vad_interval_bounds (audio : List ℚ) (sr : ℕ) (o : VadOptions)
    (hsr : 0 < sr) (hfl : 0 ≤ vadFrameLen o) (hhop : 0 ≤ vadHopLen o)
    (hhs : vadHopLen o * sr ≤ (hopSamples sr o : ℚ)) :
    ∀ p ∈ energy_vad audio sr o,
      0 ≤ p.1 ∧ p.1 ≤ p.2 ∧ p.2 ≤ vadDuration audio sr :=
  (energy_vad_props audio sr o hsr hfl hhop hhs).1

/-- Witness for C7 (amended): the default options at `sr = 1` on the
empty buffer produce the whole-buffer interval, which is within
bounds. -/
theorem energy_vad_interval_bounds_witness :
    0 ≤ ((0 : ℚ), vadDuration [] 1).1
    ∧ ((0 : ℚ), vadDuration [] 1).1 ≤ ((0 : ℚ), vadDuration [] 1).2
    ∧ ((0 : ℚ), vadDuration [] 1).2 ≤ vadDuration [] 1 :=
  energy_vad_interval_bounds [] 1 {} (by norm_num) (by norm_num [vadFrameLen])
    (by norm_num [vadHopLen])
    (by norm_num [vadHopLen, hopSamples, pyInt])
    ((0 : ℚ), vadDuration [] 1)
    (by
      have h : energy_vad [] 1 {} = [(0, vadDuration [] 1)] := by
        simp only [energy_vad]
        rw [if_pos (by norm_num [frameSamples, vadFrameLen, pyInt])]
      rw [h]
      exact List.mem_singleton.mpr rfl)

/-- C7 counterexample: with `vadOptionsCex` at `sr = 1` on the buffer
`[0, 0, 0, 0, 1]`, the single returned interval is
`(7.96, 5)` — its start exceeds both its end and the buffer duration 5,
refuting `0 ≤ start ≤ end ≤ duration` for arbitrary option sets. -/
theorem energy_vad_bounds_counterexample :
    energy_vad [0, 0, 0, 0, 1] 1 vadOptionsCex = [(199 / 25, 5)]
    ∧ ¬((199 / 25 : ℚ) ≤ 5) := by
  have hfs : frameSamples 1 vadOptionsCex = 1 := by
    norm_num [frameSamples, vadFrameLen, vadOptionsCex, pyInt]
  have hhs : hopSamples 1 vadOptionsCex = 1 := by
    norm_num [hopSamples, vadHopLen, vadOptionsCex, pyInt]
  have hen : vadEnergies [0, 0, 0, 0, 1] 1 vadOptionsCex = [0, 0, 0, 0, (1 : ℝ)] := by
    simp only [vadEnergies]
    rw [hfs, hhs]
    norm_num [frameStarts, numFrames, List.range'_succ, rmsEnergy]
  have hth : vadThreshold [0, 0, 0, 0, (1 : ℝ)] vadOptionsCex = ((1 / 2 : ℚ) : ℝ) := by
    norm_num [vadThreshold, manualThreshold, vadOptionsCex]
  have hcast : ((1 / 2 : ℚ) : ℝ) = (1 / 2 : ℝ) := by norm_num
  have hflags : speechFlags [0, 0, 0, 0, (1 : ℝ)] ((1 / 2 : ℚ) : ℝ)
      = [false, false, false, false, true] := by
    rw [hcast]
    simp only [speechFlags, List.map]
    norm_num
  have hseg : vadSegments [0, 0, 0, 0, 1] 1 vadOptionsCex = [(199 / 25, 5)] := by
    simp only [vadSegments]
    rw [hen, hth, hflags]
    norm_num [vadScanAux, pushSeg, vadHopLen, vadFrameLen, vadMinSilence, vadDuration,
      vadOptionsCex]
  constructor
  · simp only [energy_vad]
    rw [if_neg (by rw [hfs]; norm_num), if_neg (by rw [hen]; simp), hseg]
    have hrf : vadRefine [((199 : ℚ) / 25, (5 : ℚ))] vadOptionsCex = [(199 / 25, 5)] := by
      norm_num [vadRefine, vadMinSpeech, vadOptionsCex, List.filter]
    rw [hrf]
    norm_num
  · norm_num

/-! ### Claim theorems: diarizer ordering -/

lemma enumFrom_snd_mem {α : Type*} :
    ∀ (l : List α) (n : ℕ) (y : ℕ × α), y ∈ l.enumFrom n → y.2 ∈ l := by
  intro l
  induction l with
  | nil =>
    intro n y h
    simp [List.enumFrom] at h
  | cons a l ih =>
    intro n y h
    simp only [List.enumFrom] at h
    rcases List.mem_cons.mp h with rfl | h
    · exact List.mem_cons_self _ _
    · exact List.mem_cons_of_mem _ (ih (n + 1) y h)

lemma pairwise_enumFrom {α : Type*} {R : α → α → Prop} :
    ∀ (l : List α) (n : ℕ), List.Pairwise R l →
      List.Pairwise (fun x y : ℕ × α => R x.2 y.2) (l.enumFrom n) := by
  intro l
  induction l with
  | nil =>
    intro n _
    simp [List.enumFrom]
  | cons a l ih =>
    intro n hp
    rw [List.pairwise_cons] at hp
    simp only [List.enumFrom]
    rw [List.pairwise_cons]
    constructor
    · intro y hy
      exact hp.1 y.2 (enumFrom_snd_mem l (n + 1) y hy)
    · exact ih (n + 1) hp.2

lemma mergeSort_start_props (base : List SpeechSegment)
    (h1 : List.Pairwise (fun a b : SpeechSegment => a.stop ≤ b.start) base) :
    List.Pairwise (fun a b : SpeechSegment => a.start ≤ b.start)
      (base.mergeSort (fun a b => decide (a.start ≤ b.start)))
    ∧ List.Pairwise (fun a b : SpeechSegment => a.stop ≤ b.start ∨ b.stop ≤ a.start)
      (base.mergeSort (fun a b => decide (a.start ≤ b.start))) := by
  constructor
  · have hs := @List.sorted_mergeSort SpeechSegment
      (fun a b : SpeechSegment => decide (a.start ≤ b.start))
      (by
        intro a b c hab hbc
        simp only [decide_eq_true_eq] at hab hbc ⊢
        exact le_trans hab hbc)
      (by
        intro a b
        simp only [Bool.or_eq_true, decide_eq_true_eq]
        exact le_total _ _)
      base
    exact hs.imp (by intro a b h; simpa using h)
  · have hperm := List.mergeSort_perm base (fun a b => decide (a.start ≤ b.start))
    have hsymm : ∀ {x y : SpeechSegment},
        (x.stop ≤ y.start ∨ y.stop ≤ x.start) →
        (y.stop ≤ x.start ∨ x.stop ≤ y.start) := fun h => h.symm
    exact (List.Perm.pairwise_iff hsymm hperm).mpr (h1.imp (fun h => Or.inl h))

/-- C8 (amended): on any VAD output produced with nonnegative effective
frame length, hop length and `min_silence`, positive sample rate, and
`hop_length * sr ≤ hop_samples`, the diarizer's output is sorted by start
time and its intervals are pairwise non-overlapping, for every clusterer,
scorer, feature matrix and diarization option set. -/
theorem diarize_vad_sorted_nonoverlapping (audio : List ℚ) (sr : ℕ)
    (vo : VadOptions) (cluster : Clusterer) (score : Scorer)
    (features : List (List ℚ)) (o : DiarOptions)
    (hsr : 0 < sr) (hfl : 0 ≤ vadFrameLen vo) (hhop : 0 ≤ vadHopLen vo)
    (hhs : vadHopLen vo * sr ≤ (hopSamples sr vo : ℚ))
    (hsil : 0 ≤ vadMinSilence vo) :
    List.Pairwise (fun a b : SpeechSegment => a.start ≤ b.start)
      (diarize_segments cluster score (energy_vad audio sr vo) features o)
    ∧ List.Pairwise (fun a b : SpeechSegment => a.stop ≤ b.start ∨ b.stop ≤ a.start)
      (diarize_segments cluster score (energy_vad audio sr vo) features o) := by
  obtain ⟨hbounds, hchainf⟩ := energy_vad_props audio sr vo hsr hfl hhop hhs
  have hchain := hchainf hsil
  simp only [diarize_segments]
  by_cases hemp : (energy_vad audio sr vo).isEmpty
  · rw [if_pos hemp]
    simp
  · rw [if_neg hemp]
    by_cases hn : estimate_speaker_count cluster score features o ≤ 1
    · rw [if_pos hn]
      constructor
      · rw [List.pairwise_map]
        apply List.Pairwise.imp_of_mem ?_ hchain
        intro a b ha _ hr
        exact le_trans (hbounds a ha).2.1 hr
      · rw [List.pairwise_map]
        exact hchain.imp (fun h => Or.inl h)
    · rw [if_neg hn]
      have hp_enum : List.Pairwise (fun x y : ℕ × (ℚ × ℚ) => x.2.2 ≤ y.2.1)
          (energy_vad audio sr vo).enum :=
        pairwise_enumFrom (energy_vad audio sr vo) 0 hchain
      exact mergeSort_start_props _ (List.pairwise_map.mpr (hp_enum.imp (fun h => h)))

/-- Witness for C8 (amended) at default options on the empty buffer. -/
theorem diarize_vad_sorted_nonoverlapping_witness :
    List.Pairwise (fun a b : SpeechSegment => a.start ≤ b.start)
      (diarize_segments (fun _ _ => []) (fun _ _ => 0) (energy_vad [] 1 {}) [] {})
    ∧ List.Pairwise (fun a b : SpeechSegment => a.stop ≤ b.start ∨ b.stop ≤ a.start)
      (diarize_segments (fun _ _ => []) (fun _ _ => 0) (energy_vad [] 1 {}) [] {}) :=
  diarize_vad_sorted_nonoverlapping [] 1 {} (fun _ _ => []) (fun _ _ => 0) [] {}
    (by norm_num) (by norm_num [vadFrameLen]) (by norm_num [vadHopLen])
    (by norm_num [vadHopLen, hopSamples, pyInt]) (by norm_num [vadMinSilence])

/-- C8 counterexample: on an unsorted input segmentation (not produced by
the VAD) with an empty feature matrix, the single-speaker branch of the
diarizer preserves the input order, so the output is neither sorted nor
non-overlapping. -/
theorem diarize_unsorted_counterexample :
    diarize_segments (fun _ _ => []) (fun _ _ => 0) [(1, 2), (0, 5)] [] {}
      = [⟨1, 2, 0, []⟩, ⟨0, 5, 0, []⟩]
    ∧ ¬ List.Pairwise (fun a b : SpeechSegment => a.start ≤ b.start)
        [(⟨1, 2, 0, []⟩ : SpeechSegment), ⟨0, 5, 0, []⟩] := by
  constructor
  · decide
  · intro hp
    have := (List.pairwise_cons.mp hp).1 ⟨0, 5, 0, []⟩ (List.mem_cons_self _ _)
    norm_num at this

end ProcessAudio
